import Mathlib

/-!
Verification of the `line-position` library: parsing a text into line
spans and resolving a flat offset to a (line, column) position.

The input text is modelled as a `List Char`; offsets and lengths count
the same units throughout, mirroring the source's consistent use of one
unit for span boundaries and queries.
-/

namespace LinePos

/-- Error type of the library: the only failure is an offset beyond the
length of the input. -/
inductive LinesError where
  | OffsetOutOfBounds
deriving DecidableEq, Repr

/-- Position within the file: 1-indexed line number and 0-indexed offset
within the line. -/
structure LinePosition where
  line : Nat
  offset : Nat
deriving DecidableEq, Repr

/-- One line's extent `[start, end)` within the input. -/
structure Line where
  start : Nat
  «end» : Nat
deriving DecidableEq, Repr

/-- The parsed index: an ordered sequence of line spans. -/
structure Lines where
  lines : List Line
deriving DecidableEq, Repr

/-- Result type of a lookup. -/
abbrev LinesResult := Except LinesError LinePosition

instance : DecidableEq LinesResult := fun
  | .ok a, .ok b =>
    if h : a = b then .isTrue (by rw [h]) else .isFalse (fun hc => by cases hc; exact h rfl)
  | .ok _, .error _ => .isFalse (fun hc => by cases hc)
  | .error _, .ok _ => .isFalse (fun hc => by cases hc)
  | .error a, .error b =>
    if h : a = b then .isTrue (by rw [h]) else .isFalse (fun hc => by cases hc; exact h rfl)

/-- Does `sep` occur as a contiguous substring of `s`?
Models Rust `str::contains` with a string pattern. -/
def containsSub (sep : List Char) : List Char → Bool
  | [] => sep.isEmpty
  | c :: rest => sep.isPrefixOf (c :: rest) || containsSub sep rest

/-- Fuel-driven worker for `str::split_inclusive`: split at each
occurrence of `sep`, keeping the separator at the end of the preceding
segment; the final delimiter produces no trailing empty segment.  The
fuel only serves termination; every caller passes fuel at least the
length of `s`, which makes the fuel-exhausted branch unreachable. -/
def splitAux (sep : List Char) (fuel : Nat) (acc s : List Char) : List (List Char) :=
  match s with
  | [] => if acc = [] then [] else [acc.reverse]
  | c :: rest =>
    match fuel with
    | 0 => [acc.reverse ++ c :: rest]
    | fuel + 1 =>
      if sep.isPrefixOf (c :: rest) then
        (acc.reverse ++ sep) :: splitAux sep fuel [] (rest.drop (sep.length - 1))
      else
        splitAux sep fuel (c :: acc) rest

/-- Rust `str::split_inclusive(sep)` as used by `Lines::parse`. -/
def splitInclusive (sep s : List Char) : List (List Char) :=
  splitAux sep s.length [] s

/-- The span-building loop of `Lines::parse`: walk the segments with a
running `start` cursor, emitting `{start, start + len}` for each. -/
def buildSpans (start : Nat) : List (List Char) → List Line
  | [] => []
  | seg :: rest => ⟨start, start + seg.length⟩ :: buildSpans (start + seg.length) rest

/-- The `line_ending` choice made by `Lines::parse`: `"\r\n"` if it occurs
anywhere in the input, else `"\n"`. -/
def chosenSep (input : List Char) : List Char :=
  if containsSub ['\r', '\n'] input then ['\r', '\n'] else ['\n']

/-- Embedding of `Lines::parse`: choose the delimiter and record one span per
inclusive segment, the cursor starting at 0. -/
def Lines.parse (input : List Char) : Lines :=
  ⟨buildSpans 0 (splitInclusive (chosenSep input) input)⟩

/-- The scanning loop of `Lines::position`: first span whose half-open
range contains the offset wins; the running counter starts at 1. -/
def positionGo (input_offset : Nat) : Nat → List Line → LinesResult
  | _, [] => .error .OffsetOutOfBounds
  | line_number, l :: rest =>
    if l.start ≤ input_offset ∧ input_offset < l.«end» then
      .ok ⟨line_number, input_offset - l.start⟩
    else
      positionGo input_offset (line_number + 1) rest

/-- Embedding of `Lines::position`: linear scan over the spans. -/
def Lines.position (self : Lines) (input_offset : Nat) : LinesResult :=
  positionGo input_offset 1 self.lines

/-- Embedding of `Lines::num_lines`. -/
def Lines.num_lines (self : Lines) : Nat :=
  self.lines.length

/-- Binary-search lookup described by the spec as a drop-in refinement of
the linear scan: `bsGo` computes, over spans sorted by `start`, the least
index in `[lo, hi)` whose span's `start` exceeds the offset (or `hi` if
none).  Fuel only serves termination. -/
def bsGo (spans : List Line) (off : Nat) : Nat → Nat → Nat → Nat
  | 0, lo, _ => lo
  | fuel + 1, lo, hi =>
    if lo < hi then
      let mid := (lo + hi) / 2
      if (spans.getD mid ⟨0, 0⟩).start ≤ off then
        bsGo spans off fuel (mid + 1) hi
      else
        bsGo spans off fuel lo mid
    else lo

/-- Binary-search resolution: find the rightmost span whose `start` is at
most the offset (as the predecessor of the least span whose `start`
exceeds it), then check the offset against that span's `end`. -/
def positionBin (self : Lines) (off : Nat) : LinesResult :=
  let n := self.lines.length
  let ub := bsGo self.lines off n 0 n
  if ub = 0 then
    .error .OffsetOutOfBounds
  else
    let sp := self.lines.getD (ub - 1) ⟨0, 0⟩
    if off < sp.«end» then
      .ok ⟨ub, off - sp.start⟩
    else
      .error .OffsetOutOfBounds

/-- Total length of a list of segments. -/
def sumLen (segs : List (List Char)) : Nat :=
  (segs.map List.length).sum

/-! ### Basic facts about `isPrefixOf` and `containsSub` -/

theorem isPrefixOf_append_drop :
    ∀ (p l : List Char), p.isPrefixOf l = true → p ++ l.drop p.length = l
  | [], _, _ => by simp
  | _ :: _, [], h => by simp [List.isPrefixOf] at h
  | a :: as, b :: bs, h => by
    simp only [List.isPrefixOf, Bool.and_eq_true, beq_iff_eq] at h
    obtain ⟨rfl, h2⟩ := h
    simpa using isPrefixOf_append_drop as bs h2

theorem isPrefixOf_length_le :
    ∀ (p l : List Char), p.isPrefixOf l = true → p.length ≤ l.length
  | [], _, _ => by simp
  | _ :: _, [], h => by simp [List.isPrefixOf] at h
  | _ :: as, _ :: bs, h => by
    simp only [List.isPrefixOf, Bool.and_eq_true] at h
    simpa using isPrefixOf_length_le as bs h.2

theorem containsSub_of_isPrefixOf (sep s : List Char) (h : sep.isPrefixOf s = true) :
    containsSub sep s = true := by
  cases s with
  | nil =>
    cases sep with
    | nil => simp [containsSub]
    | cons a as => simp [List.isPrefixOf] at h
  | cons c rest => simp [containsSub, h]

theorem contains_lf_of_contains_crlf :
    ∀ s : List Char, containsSub ['\r', '\n'] s = true → containsSub ['\n'] s = true := by
  intro s
  induction s with
  | nil => simp [containsSub]
  | cons c rest ih =>
    intro h
    simp only [containsSub, Bool.or_eq_true] at h ⊢
    rcases h with h | h
    · simp only [List.isPrefixOf, Bool.and_eq_true, beq_iff_eq] at h
      exact Or.inr (containsSub_of_isPrefixOf _ _ h.2)
    · exact Or.inr (ih h)

/-! ### Facts about `splitAux` / `splitInclusive` -/

theorem splitAux_join (sep : List Char) (hsep : sep ≠ []) :
    ∀ (fuel : Nat) (acc s : List Char), s.length ≤ fuel →
      (splitAux sep fuel acc s).flatten = acc.reverse ++ s := by
  intro fuel
  induction fuel with
  | zero =>
    intro acc s hs
    have hsnil : s = [] := by
      cases s with
      | nil => rfl
      | cons c rest => simp at hs
    subst hsnil
    by_cases h : acc = [] <;> simp [splitAux, h]
  | succ fuel ih =>
    intro acc s hs
    cases s with
    | nil => by_cases h : acc = [] <;> simp [splitAux, h]
    | cons c rest =>
      simp only [splitAux]
      by_cases hp : sep.isPrefixOf (c :: rest) = true
      · rw [if_pos hp]
        have hrest : (rest.drop (sep.length - 1)).length ≤ fuel := by
          simp only [List.length_cons] at hs
          simp only [List.length_drop]
          omega
        simp only [List.flatten_cons, ih [] (rest.drop (sep.length - 1)) hrest,
          List.reverse_nil, List.nil_append, List.append_assoc]
        congr 1
        obtain ⟨d, sep', rfl⟩ : ∃ d sep', sep = d :: sep' := by
          cases sep with
          | nil => exact absurd rfl hsep
          | cons d sep' => exact ⟨d, sep', rfl⟩
        have := isPrefixOf_append_drop (d :: sep') (c :: rest) hp
        simpa using this
      · rw [if_neg hp]
        have : rest.length ≤ fuel := by simp only [List.length_cons] at hs; omega
        simp [ih (c :: acc) rest this]

theorem splitInclusive_join (sep s : List Char) (hsep : sep ≠ []) :
    (splitInclusive sep s).flatten = s := by
  simpa using splitAux_join sep hsep s.length [] s (le_refl _)

theorem splitAux_segs_ne_nil (sep : List Char) (hsep : sep ≠ []) :
    ∀ (fuel : Nat) (acc s : List Char), ∀ seg ∈ splitAux sep fuel acc s, seg ≠ [] := by
  intro fuel
  induction fuel with
  | zero =>
    intro acc s seg hseg
    cases s with
    | nil =>
      by_cases h : acc = [] <;> simp [splitAux, h] at hseg
      · subst hseg
        simpa using h
    | cons c rest =>
      simp only [splitAux, List.mem_singleton] at hseg
      subst hseg
      simp
  | succ fuel ih =>
    intro acc s seg hseg
    cases s with
    | nil =>
      by_cases h : acc = [] <;> simp [splitAux, h] at hseg
      · subst hseg
        simpa using h
    | cons c rest =>
      simp only [splitAux] at hseg
      by_cases hp : sep.isPrefixOf (c :: rest) = true
      · rw [if_pos hp] at hseg
        rcases List.mem_cons.mp hseg with h | h
        · subst h
          simp [hsep]
        · exact ih [] (rest.drop (sep.length - 1)) seg h
      · rw [if_neg hp] at hseg
        exact ih (c :: acc) rest seg hseg

theorem splitAux_of_not_contains (sep : List Char) :
    ∀ (fuel : Nat) (acc s : List Char), s.length ≤ fuel → containsSub sep s = false →
      splitAux sep fuel acc s =
        if acc = [] ∧ s = [] then [] else [acc.reverse ++ s] := by
  intro fuel
  induction fuel with
  | zero =>
    intro acc s hs _
    have hsnil : s = [] := by
      cases s with
      | nil => rfl
      | cons c rest => simp at hs
    subst hsnil
    by_cases h : acc = [] <;> simp [splitAux, h]
  | succ fuel ih =>
    intro acc s hs hc
    cases s with
    | nil => by_cases h : acc = [] <;> simp [splitAux, h]
    | cons c rest =>
      simp only [containsSub, Bool.or_eq_false_iff] at hc
      simp only [splitAux, if_neg (by simp [hc.1] : ¬sep.isPrefixOf (c :: rest) = true)]
      have : rest.length ≤ fuel := by simp only [List.length_cons] at hs; omega
      rw [ih (c :: acc) rest this hc.2]
      simp

/-! ### Facts about `sumLen` -/

theorem sumLen_nil : sumLen [] = 0 := rfl

theorem sumLen_cons (seg : List Char) (rest : List (List Char)) :
    sumLen (seg :: rest) = seg.length + sumLen rest := by
  simp [sumLen]

theorem sumLen_take_mono (l : List (List Char)) :
    ∀ i j : Nat, i ≤ j → sumLen (l.take i) ≤ sumLen (l.take j) := by
  induction l with
  | nil => simp
  | cons a l ih =>
    intro i j hij
    cases i with
    | zero => simp [sumLen_nil, Nat.zero_le]
    | succ i =>
      cases j with
      | zero => omega
      | succ j =>
        simp only [List.take_succ_cons, sumLen_cons]
        exact Nat.add_le_add_left (ih i j (by omega)) _

theorem sumLen_take_le (l : List (List Char)) : ∀ i : Nat, sumLen (l.take i) ≤ sumLen l := by
  induction l with
  | nil => simp
  | cons a l ih =>
    intro i
    cases i with
    | zero => simp [sumLen_nil, Nat.zero_le]
    | succ i =>
      simp only [List.take_succ_cons, sumLen_cons]
      exact Nat.add_le_add_left (ih i) _

theorem sumLen_take_succ (l : List (List Char)) :
    ∀ i : Nat, i < l.length →
      sumLen (l.take (i + 1)) = sumLen (l.take i) + (l.getD i []).length := by
  induction l with
  | nil => simp
  | cons a l ih =>
    intro i hi
    cases i with
    | zero => simp [sumLen_cons, sumLen_nil, Nat.add_comm]
    | succ i =>
      simp only [List.take_succ_cons, sumLen_cons, List.getD_cons_succ]
      rw [ih i (by simpa using hi)]
      omega

theorem sumLen_eq_length_flatten (l : List (List Char)) : sumLen l = l.flatten.length := by
  simp [sumLen]

/-! ### Facts about `buildSpans` -/

theorem buildSpans_length (segs : List (List Char)) :
    ∀ st : Nat, (buildSpans st segs).length = segs.length := by
  induction segs with
  | nil => simp [buildSpans]
  | cons seg rest ih => intro st; simp [buildSpans, ih]

theorem buildSpans_getD (segs : List (List Char)) :
    ∀ (st i : Nat), i < segs.length →
      (buildSpans st segs).getD i ⟨0, 0⟩ =
        ⟨st + sumLen (segs.take i), st + sumLen (segs.take (i + 1))⟩ := by
  induction segs with
  | nil => simp
  | cons seg rest ih =>
    intro st i hi
    cases i with
    | zero =>
      simp [buildSpans, sumLen_nil, sumLen_cons]
    | succ i =>
      simp only [buildSpans, List.getD_cons_succ, List.take_succ_cons, sumLen_cons]
      rw [ih (st + seg.length) i (by simpa using hi)]
      simp [Line.mk.injEq]
      omega

theorem buildSpans_cover (segs : List (List Char)) :
    ∀ (st off : Nat), st ≤ off → off < st + sumLen segs →
      ∃ i, i < segs.length ∧
        ((buildSpans st segs).getD i ⟨0, 0⟩).start ≤ off ∧
        off < ((buildSpans st segs).getD i ⟨0, 0⟩).«end» := by
  induction segs with
  | nil =>
    intro st off h1 h2
    rw [sumLen_nil] at h2
    omega
  | cons seg rest ih =>
    intro st off h1 h2
    by_cases hoff : off < st + seg.length
    · exact ⟨0, by simp [buildSpans], by simpa [buildSpans] using h1, by simpa [buildSpans] using hoff⟩
    · push_neg at hoff
      rw [sumLen_cons] at h2
      obtain ⟨i, hi, h3, h4⟩ := ih (st + seg.length) off hoff (by omega)
      exact ⟨i + 1, by simpa using hi, by simpa [buildSpans] using h3,
        by simpa [buildSpans] using h4⟩

/-! ### Facts about `positionGo` -/

theorem positionGo_ok_of_first (off : Nat) :
    ∀ (spans : List Line) (k i : Nat), i < spans.length →
      (∀ j, j < i →
        ¬((spans.getD j ⟨0, 0⟩).start ≤ off ∧ off < (spans.getD j ⟨0, 0⟩).«end»)) →
      (spans.getD i ⟨0, 0⟩).start ≤ off → off < (spans.getD i ⟨0, 0⟩).«end» →
      positionGo off k spans = .ok ⟨k + i, off - (spans.getD i ⟨0, 0⟩).start⟩ := by
  intro spans
  induction spans with
  | nil => simp
  | cons l rest ih =>
    intro k i hi hfirst h1 h2
    cases i with
    | zero =>
      simp only [List.getD_cons_zero] at h1 h2
      simp [positionGo, h1, h2]
    | succ i =>
      have h0 : ¬(l.start ≤ off ∧ off < l.«end») := by
        simpa using hfirst 0 (Nat.succ_pos _)
      simp only [List.getD_cons_succ] at h1 h2 ⊢
      simp only [positionGo, if_neg h0]
      have hk : k + (i + 1) = (k + 1) + i := by omega
      rw [hk]
      exact ih (k + 1) i (by simpa using hi)
        (fun j hj => by simpa using hfirst (j + 1) (by omega)) h1 h2

theorem positionGo_ok_elim (off : Nat) :
    ∀ (spans : List Line) (k : Nat) (p : LinePosition),
      positionGo off k spans = .ok p →
      ∃ i, i < spans.length ∧ (spans.getD i ⟨0, 0⟩).start ≤ off ∧
        off < (spans.getD i ⟨0, 0⟩).«end» ∧
        p.line = k + i ∧ p.offset = off - (spans.getD i ⟨0, 0⟩).start := by
  intro spans
  induction spans with
  | nil => simp [positionGo]
  | cons l rest ih =>
    intro k p hp
    by_cases hc : l.start ≤ off ∧ off < l.«end»
    · simp only [positionGo, if_pos hc, Except.ok.injEq] at hp
      exact ⟨0, by simp, by simpa using hc.1, by simpa using hc.2,
        by simp [← hp], by simp [← hp]⟩
    · simp only [positionGo, if_neg hc] at hp
      obtain ⟨i, hi, h1, h2, h3, h4⟩ := ih (k + 1) p hp
      exact ⟨i + 1, by simpa using hi, by simpa using h1, by simpa using h2,
        by simpa [Nat.add_assoc, Nat.add_comm 1 i] using h3, by simpa using h4⟩

theorem positionGo_err (off : Nat) :
    ∀ (spans : List Line) (k : Nat),
      (∀ i, i < spans.length →
        ¬((spans.getD i ⟨0, 0⟩).start ≤ off ∧ off < (spans.getD i ⟨0, 0⟩).«end»)) →
      positionGo off k spans = .error .OffsetOutOfBounds := by
  intro spans
  induction spans with
  | nil => simp [positionGo]
  | cons l rest ih =>
    intro k h
    have h0 : ¬(l.start ≤ off ∧ off < l.«end») := by simpa using h 0 (Nat.succ_pos _)
    simp only [positionGo, if_neg h0]
    exact ih (k + 1) (fun i hi => by
      simpa using h (i + 1) (by simp only [List.length_cons]; omega))

theorem linesResult_ok_or_err (r : LinesResult) :
    (∃ p, r = .ok p) ∨ r = .error .OffsetOutOfBounds := by
  cases r with
  | ok p => exact Or.inl ⟨p, rfl⟩
  | error e => cases e; exact Or.inr rfl

/-! ### Facts about `Lines.parse` and `Lines.position` -/

/-- The segments that `Lines.parse` turns into spans. -/
def segsOf (input : List Char) : List (List Char) :=
  splitInclusive (chosenSep input) input

theorem chosenSep_ne_nil (input : List Char) : chosenSep input ≠ [] := by
  unfold chosenSep
  split <;> simp

theorem parse_lines (input : List Char) :
    (Lines.parse input).lines = buildSpans 0 (segsOf input) := rfl

theorem segsOf_total (input : List Char) : sumLen (segsOf input) = input.length := by
  rw [sumLen_eq_length_flatten, segsOf, splitInclusive_join _ _ (chosenSep_ne_nil input)]

theorem parse_lines_length (input : List Char) :
    (Lines.parse input).lines.length = (segsOf input).length := by
  rw [parse_lines, buildSpans_length]

theorem parse_getD (input : List Char) (i : Nat) (hi : i < (segsOf input).length) :
    (Lines.parse input).lines.getD i ⟨0, 0⟩ =
      ⟨sumLen ((segsOf input).take i), sumLen ((segsOf input).take (i + 1))⟩ := by
  rw [parse_lines]
  simpa using buildSpans_getD (segsOf input) 0 i hi

theorem parse_contains_unique (input : List Char) (off i j : Nat)
    (hi : i < (Lines.parse input).lines.length)
    (hj : j < (Lines.parse input).lines.length)
    (h1 : ((Lines.parse input).lines.getD i ⟨0, 0⟩).start ≤ off)
    (h2 : off < ((Lines.parse input).lines.getD i ⟨0, 0⟩).«end»)
    (h3 : ((Lines.parse input).lines.getD j ⟨0, 0⟩).start ≤ off)
    (h4 : off < ((Lines.parse input).lines.getD j ⟨0, 0⟩).«end») : i = j := by
  rw [parse_lines_length] at hi hj
  rw [parse_getD input i hi] at h1 h2
  rw [parse_getD input j hj] at h3 h4
  simp only at h1 h2 h3 h4
  rcases Nat.lt_trichotomy i j with h | h | h
  · have : sumLen ((segsOf input).take (i + 1)) ≤ sumLen ((segsOf input).take j) :=
      sumLen_take_mono _ _ _ (by omega)
    omega
  · exact h
  · have : sumLen ((segsOf input).take (j + 1)) ≤ sumLen ((segsOf input).take i) :=
      sumLen_take_mono _ _ _ (by omega)
    omega

theorem position_ok_of_contains (input : List Char) (off i : Nat)
    (hi : i < (Lines.parse input).lines.length)
    (h1 : ((Lines.parse input).lines.getD i ⟨0, 0⟩).start ≤ off)
    (h2 : off < ((Lines.parse input).lines.getD i ⟨0, 0⟩).«end») :
    (Lines.parse input).position off =
      .ok ⟨i + 1, off - ((Lines.parse input).lines.getD i ⟨0, 0⟩).start⟩ := by
  have hfirst : ∀ j, j < i →
      ¬(((Lines.parse input).lines.getD j ⟨0, 0⟩).start ≤ off ∧
        off < ((Lines.parse input).lines.getD j ⟨0, 0⟩).«end») := by
    intro j hj hc
    have := parse_contains_unique input off i j hi (by omega) h1 h2 hc.1 hc.2
    omega
  have := positionGo_ok_of_first off (Lines.parse input).lines 1 i hi hfirst h1 h2
  rw [Lines.position, this]
  congr 2
  omega

theorem position_ok_elim (input : List Char) (off : Nat) (p : LinePosition)
    (hp : (Lines.parse input).position off = .ok p) :
    ∃ i, i < (Lines.parse input).lines.length ∧
      ((Lines.parse input).lines.getD i ⟨0, 0⟩).start ≤ off ∧
      off < ((Lines.parse input).lines.getD i ⟨0, 0⟩).«end» ∧
      p.line = i + 1 ∧ p.offset = off - ((Lines.parse input).lines.getD i ⟨0, 0⟩).start := by
  obtain ⟨i, hi, h1, h2, h3, h4⟩ := positionGo_ok_elim off (Lines.parse input).lines 1 p hp
  exact ⟨i, hi, h1, h2, by omega, h4⟩

theorem parse_end_le_length (input : List Char) (i : Nat)
    (hi : i < (Lines.parse input).lines.length) :
    ((Lines.parse input).lines.getD i ⟨0, 0⟩).«end» ≤ input.length := by
  rw [parse_lines_length] at hi
  rw [parse_getD input i hi]
  rw [← segsOf_total input]
  exact sumLen_take_le _ _

theorem parse_cover (input : List Char) (off : Nat) (hoff : off < input.length) :
    ∃ i, i < (Lines.parse input).lines.length ∧
      ((Lines.parse input).lines.getD i ⟨0, 0⟩).start ≤ off ∧
      off < ((Lines.parse input).lines.getD i ⟨0, 0⟩).«end» := by
  have hcov := buildSpans_cover (segsOf input) 0 off (Nat.zero_le _)
    (by rw [segsOf_total input]; omega)
  obtain ⟨i, hi, h1, h2⟩ := hcov
  rw [← parse_lines] at h1 h2
  rw [← buildSpans_length (segsOf input) 0, ← parse_lines] at hi
  exact ⟨i, hi, h1, h2⟩

theorem position_ok_iff (input : List Char) (off : Nat) :
    (∃ p, (Lines.parse input).position off = .ok p) ↔ off < input.length := by
  constructor
  · rintro ⟨p, hp⟩
    obtain ⟨i, hi, _, h2, _, _⟩ := position_ok_elim input off p hp
    have := parse_end_le_length input i hi
    omega
  · intro hoff
    obtain ⟨i, hi, h1, h2⟩ := parse_cover input off hoff
    exact ⟨_, position_ok_of_contains input off i hi h1 h2⟩

theorem position_err_of_ge (input : List Char) (off : Nat) (h : input.length ≤ off) :
    (Lines.parse input).position off = .error .OffsetOutOfBounds := by
  rw [Lines.position]
  apply positionGo_err
  intro i hi hc
  have := parse_end_le_length input i hi
  omega

theorem buildSpans_start_le (segs : List (List Char)) :
    ∀ st : Nat, ∀ l ∈ buildSpans st segs, l.start ≤ l.«end» := by
  induction segs with
  | nil => simp [buildSpans]
  | cons seg rest ih =>
    intro st l hl
    rcases List.mem_cons.mp hl with h | h
    · subst h; simp
    · exact ih (st + seg.length) l h

theorem buildSpans_start_lt (segs : List (List Char)) :
    ∀ st : Nat, (∀ seg ∈ segs, seg ≠ []) → ∀ l ∈ buildSpans st segs, l.start < l.«end» := by
  induction segs with
  | nil => simp [buildSpans]
  | cons seg rest ih =>
    intro st hne l hl
    rcases List.mem_cons.mp hl with h | h
    · subst h
      have : seg ≠ [] := hne seg (List.mem_cons_self _ _)
      have : 0 < seg.length := List.length_pos.mpr this
      simpa using this
    · exact ih (st + seg.length) (fun s hs => hne s (List.mem_cons_of_mem _ hs)) l h

theorem getD_append_length (l t : List Char) (c d : Char) :
    (l ++ c :: t).getD l.length d = c := by
  induction l with
  | nil => simp
  | cons a l ih => simpa using ih

theorem getD_append_plus (l t : List Char) (n : Nat) (d : Char) :
    (l ++ t).getD (l.length + n) d = t.getD n d := by
  induction l with
  | nil => simp
  | cons a l ih =>
    have : (a :: l).length + n = (l.length + n) + 1 := by simp; omega
    rw [this]
    simpa using ih

theorem flatten_getD_of_seg_eq :
    ∀ (segs : List (List Char)) (i : Nat) (pre : List Char) (c d : Char),
      i < segs.length → segs.getD i [] = pre ++ [c] →
      segs.flatten.getD (sumLen (segs.take (i + 1)) - 1) d = c := by
  intro segs
  induction segs with
  | nil => simp
  | cons seg rest ih =>
    intro i pre c d hi hseg
    cases i with
    | zero =>
      simp only [List.getD_cons_zero] at hseg
      subst hseg
      simp only [List.take_succ_cons, List.take_zero, sumLen_cons, sumLen_nil,
        List.flatten_cons, List.length_append, List.length_singleton]
      have harr : (pre ++ [c]) ++ rest.flatten = pre ++ c :: rest.flatten := by
        simp
      rw [harr]
      have hidx : pre.length + 1 + 0 - 1 = pre.length := by omega
      rw [hidx]
      exact getD_append_length pre rest.flatten c d
    | succ i =>
      simp only [List.getD_cons_succ] at hseg
      have hi' : i < rest.length := by simpa using hi
      have hpos : 1 ≤ sumLen (rest.take (i + 1)) := by
        rw [sumLen_take_succ rest i hi', hseg]
        simp
        omega
      simp only [List.take_succ_cons, sumLen_cons, List.flatten_cons]
      have hidx : seg.length + sumLen (rest.take (i + 1)) - 1 =
          seg.length + (sumLen (rest.take (i + 1)) - 1) := by omega
      rw [hidx, getD_append_plus]
      exact ih i pre c d hi' hseg

theorem splitAux_seg_endsWith (sep : List Char) :
    ∀ (fuel : Nat) (acc s : List Char) (i : Nat),
      i + 1 < (splitAux sep fuel acc s).length →
      ∃ pre, (splitAux sep fuel acc s).getD i [] = pre ++ sep := by
  intro fuel
  induction fuel with
  | zero =>
    intro acc s i hi
    exfalso
    cases s with
    | nil =>
      by_cases h : acc = [] <;> simp [splitAux, h] at hi
    | cons c rest => simp [splitAux] at hi
  | succ fuel ih =>
    intro acc s i hi
    cases s with
    | nil =>
      exfalso
      by_cases h : acc = [] <;> simp [splitAux, h] at hi
    | cons c rest =>
      simp only [splitAux] at hi ⊢
      by_cases hp : sep.isPrefixOf (c :: rest) = true
      · rw [if_pos hp] at hi ⊢
        cases i with
        | zero => exact ⟨acc.reverse, by simp⟩
        | succ i =>
          simp only [List.getD_cons_succ]
          exact ih [] (rest.drop (sep.length - 1)) i (by simpa using hi)
      · rw [if_neg hp] at hi ⊢
        exact ih (c :: acc) rest i hi

theorem parse_start_mono (input : List Char) (i j : Nat) (hij : i ≤ j)
    (hj : j < (Lines.parse input).lines.length) :
    ((Lines.parse input).lines.getD i ⟨0, 0⟩).start ≤
      ((Lines.parse input).lines.getD j ⟨0, 0⟩).start := by
  rw [parse_lines_length] at hj
  rw [parse_getD input i (by omega), parse_getD input j hj]
  exact sumLen_take_mono _ _ _ hij

theorem parse_end_le_start (input : List Char) (i j : Nat) (hij : i < j)
    (hj : j < (Lines.parse input).lines.length) :
    ((Lines.parse input).lines.getD i ⟨0, 0⟩).«end» ≤
      ((Lines.parse input).lines.getD j ⟨0, 0⟩).start := by
  rw [parse_lines_length] at hj
  rw [parse_getD input i (by omega), parse_getD input j hj]
  exact sumLen_take_mono _ _ _ (by omega)

theorem parse_contiguous (input : List Char) (i : Nat)
    (hi : i + 1 < (Lines.parse input).lines.length) :
    ((Lines.parse input).lines.getD i ⟨0, 0⟩).«end» =
      ((Lines.parse input).lines.getD (i + 1) ⟨0, 0⟩).start := by
  rw [parse_lines_length] at hi
  rw [parse_getD input i (by omega), parse_getD input (i + 1) hi]

/-! ### Correctness of the binary search (`bsGo`) -/

theorem bsGo_spec (spans : List Line) (off : Nat)
    (hsorted : ∀ i j : Nat, i ≤ j → j < spans.length →
      (spans.getD i ⟨0, 0⟩).start ≤ (spans.getD j ⟨0, 0⟩).start) :
    ∀ (fuel lo hi : Nat), lo ≤ hi → hi ≤ spans.length → hi - lo ≤ fuel →
      (∀ j, j < lo → (spans.getD j ⟨0, 0⟩).start ≤ off) →
      (∀ j, hi ≤ j → j < spans.length → off < (spans.getD j ⟨0, 0⟩).start) →
      lo ≤ bsGo spans off fuel lo hi ∧ bsGo spans off fuel lo hi ≤ hi ∧
      (∀ j, j < bsGo spans off fuel lo hi → (spans.getD j ⟨0, 0⟩).start ≤ off) ∧
      (∀ j, bsGo spans off fuel lo hi ≤ j → j < spans.length →
        off < (spans.getD j ⟨0, 0⟩).start) := by
  intro fuel
  induction fuel with
  | zero =>
    intro lo hi hlohi hhin hfuel hlow hhigh
    have : lo = hi := by omega
    subst this
    exact ⟨le_refl _, le_refl _, hlow, hhigh⟩
  | succ fuel ih =>
    intro lo hi hlohi hhin hfuel hlow hhigh
    by_cases hlt : lo < hi
    · simp only [bsGo, if_pos hlt]
      by_cases hmid : (spans.getD ((lo + hi) / 2) ⟨0, 0⟩).start ≤ off
      · rw [if_pos hmid]
        refine (ih ((lo + hi) / 2 + 1) hi (by omega) hhin (by omega) ?_ hhigh).imp
          (fun h => by omega) (fun h => h)
        intro j hj
        exact le_trans (hsorted j ((lo + hi) / 2) (by omega) (by omega)) hmid
      · rw [if_neg hmid]
        push_neg at hmid
        refine (ih lo ((lo + hi) / 2) (by omega) (by omega) (by omega) hlow ?_).imp
          (fun h => h) (fun h => ⟨by omega, h.2⟩)
        intro j hj hjn
        exact lt_of_lt_of_le hmid (hsorted ((lo + hi) / 2) j hj hjn)
    · simp only [bsGo, if_neg hlt]
      have : lo = hi := by omega
      subst this
      exact ⟨le_refl _, le_refl _, hlow, hhigh⟩

theorem positionBin_def (self : Lines) (off : Nat) :
    positionBin self off =
      if bsGo self.lines off self.lines.length 0 self.lines.length = 0 then
        .error .OffsetOutOfBounds
      else if off <
          (self.lines.getD
            (bsGo self.lines off self.lines.length 0 self.lines.length - 1) ⟨0, 0⟩).«end» then
        .ok ⟨bsGo self.lines off self.lines.length 0 self.lines.length,
          off - (self.lines.getD
            (bsGo self.lines off self.lines.length 0 self.lines.length - 1) ⟨0, 0⟩).start⟩
      else .error .OffsetOutOfBounds := rfl

/-! ## The claims -/

/-- C1: if span `i` of the parsed index contains the offset
(`start ≤ offset < end`), then `position` succeeds and returns a
`LinePosition` with `line = i + 1` and `offset = offset - start` of that
span; moreover that span is the unique one containing the offset, so an
offset at a span's `start` resolves to that span with column 0 and an
offset at a span's `end` falls in the next span. -/
theorem position_resolves_containing_span (input : List Char) (off i : Nat)
    (hi : i < (Lines.parse input).lines.length)
    (h1 : ((Lines.parse input).lines.getD i ⟨0, 0⟩).start ≤ off)
    (h2 : off < ((Lines.parse input).lines.getD i ⟨0, 0⟩).«end») :
    (Lines.parse input).position off =
      .ok ⟨i + 1, off - ((Lines.parse input).lines.getD i ⟨0, 0⟩).start⟩ ∧
    ∀ j, j < (Lines.parse input).lines.length →
      ((Lines.parse input).lines.getD j ⟨0, 0⟩).start ≤ off →
      off < ((Lines.parse input).lines.getD j ⟨0, 0⟩).«end» → j = i :=
  ⟨position_ok_of_contains input off i hi h1 h2,
   fun j hj h3 h4 => parse_contains_unique input off j i hj hi h3 h4 h1 h2⟩

theorem position_resolves_containing_span_witness :
    (1 < (Lines.parse "ab\ncd".toList).lines.length ∧
      ((Lines.parse "ab\ncd".toList).lines.getD 1 ⟨0, 0⟩).start ≤ 3 ∧
      3 < ((Lines.parse "ab\ncd".toList).lines.getD 1 ⟨0, 0⟩).«end») ∧
    ((Lines.parse "ab\ncd".toList).position 3 =
      .ok ⟨1 + 1, 3 - ((Lines.parse "ab\ncd".toList).lines.getD 1 ⟨0, 0⟩).start⟩ ∧
    ∀ j, j < (Lines.parse "ab\ncd".toList).lines.length →
      ((Lines.parse "ab\ncd".toList).lines.getD j ⟨0, 0⟩).start ≤ 3 →
      3 < ((Lines.parse "ab\ncd".toList).lines.getD j ⟨0, 0⟩).«end» → j = 1) :=
  ⟨⟨by decide, by decide, by decide⟩,
   position_resolves_containing_span "ab\ncd".toList 3 1 (by decide) (by decide) (by decide)⟩

/-- C2: `position` on a parsed index succeeds exactly for offsets below
the input length; at or beyond the length it fails with
`OffsetOutOfBounds`, which is the only error it can ever return. -/
theorem position_ok_iff_in_bounds (input : List Char) (off : Nat) :
    ((∃ p, (Lines.parse input).position off = .ok p) ↔ off < input.length) ∧
    (input.length ≤ off →
      (Lines.parse input).position off = .error .OffsetOutOfBounds) ∧
    (∀ e, (Lines.parse input).position off = .error e → e = .OffsetOutOfBounds) :=
  ⟨position_ok_iff input off, position_err_of_ge input off,
   fun e _ => by cases e; rfl⟩

theorem position_ok_iff_in_bounds_witness :
    (((∃ p, (Lines.parse "a\n".toList).position 5 = .ok p) ↔
        5 < "a\n".toList.length) ∧
      ("a\n".toList.length ≤ 5 →
        (Lines.parse "a\n".toList).position 5 = .error .OffsetOutOfBounds) ∧
      (∀ e, (Lines.parse "a\n".toList).position 5 = .error e →
        e = .OffsetOutOfBounds)) ∧
    (Lines.parse "a\n".toList).position 5 = .error .OffsetOutOfBounds :=
  ⟨position_ok_iff_in_bounds "a\n".toList 5,
   (position_ok_iff_in_bounds "a\n".toList 5).2.1 (by decide)⟩

/-- C3: the spans built by `parse` satisfy `start ≤ end`, consecutive
spans are contiguous (`end` of span `i` equals `start` of span `i + 1`),
the first span starts at 0, and the last span ends at the input's total
length. -/
theorem parse_span_invariants (input : List Char) :
    (∀ l ∈ (Lines.parse input).lines, l.start ≤ l.«end») ∧
    (∀ i, i + 1 < (Lines.parse input).lines.length →
      ((Lines.parse input).lines.getD i ⟨0, 0⟩).«end» =
        ((Lines.parse input).lines.getD (i + 1) ⟨0, 0⟩).start) ∧
    ((Lines.parse input).lines ≠ [] →
      ((Lines.parse input).lines.getD 0 ⟨0, 0⟩).start = 0 ∧
      ((Lines.parse input).lines.getD
        ((Lines.parse input).lines.length - 1) ⟨0, 0⟩).«end» = input.length) := by
  refine ⟨?_, fun i hi => parse_contiguous input i hi, fun hne => ⟨?_, ?_⟩⟩
  · rw [parse_lines]
    exact buildSpans_start_le (segsOf input) 0
  · have hlen : 0 < (segsOf input).length := by
      rw [← parse_lines_length]
      exact List.length_pos.mpr hne
    rw [parse_getD input 0 hlen]
    simp [sumLen_nil]
  · have hlen : 0 < (segsOf input).length := by
      rw [← parse_lines_length]
      exact List.length_pos.mpr hne
    rw [parse_lines_length, parse_getD input ((segsOf input).length - 1) (by omega)]
    have : (segsOf input).length - 1 + 1 = (segsOf input).length := by omega
    rw [this, List.take_length, segsOf_total input]

theorem parse_span_invariants_witness :
    ((∀ l ∈ (Lines.parse "ab\ncd".toList).lines, l.start ≤ l.«end») ∧
      (∀ i, i + 1 < (Lines.parse "ab\ncd".toList).lines.length →
        ((Lines.parse "ab\ncd".toList).lines.getD i ⟨0, 0⟩).«end» =
          ((Lines.parse "ab\ncd".toList).lines.getD (i + 1) ⟨0, 0⟩).start) ∧
      ((Lines.parse "ab\ncd".toList).lines ≠ [] →
        ((Lines.parse "ab\ncd".toList).lines.getD 0 ⟨0, 0⟩).start = 0 ∧
        ((Lines.parse "ab\ncd".toList).lines.getD
          ((Lines.parse "ab\ncd".toList).lines.length - 1) ⟨0, 0⟩).«end» =
          "ab\ncd".toList.length)) ∧
    ((Lines.parse "ab\ncd".toList).lines.getD 0 ⟨0, 0⟩).start = 0 ∧
    ((Lines.parse "ab\ncd".toList).lines.getD
      ((Lines.parse "ab\ncd".toList).lines.length - 1) ⟨0, 0⟩).«end» =
      "ab\ncd".toList.length :=
  ⟨parse_span_invariants "ab\ncd".toList,
   (parse_span_invariants "ab\ncd".toList).2.2 (by decide)⟩

/-- C4: delimiter detection is a single global binary choice: if `"\r\n"`
occurs anywhere in the input, `parse` splits the whole input by `"\r\n"`
(a lone interior `"\n"` is ordinary text), otherwise it splits by
`"\n"`; in particular `parse "abcdefg\r\nhijklmnop\nqrstuv"` has 2
lines, not 3. -/
theorem parse_delimiter_choice (input : List Char) :
    (containsSub ['\r', '\n'] input = true →
      (Lines.parse input).lines = buildSpans 0 (splitInclusive ['\r', '\n'] input)) ∧
    (containsSub ['\r', '\n'] input = false →
      (Lines.parse input).lines = buildSpans 0 (splitInclusive ['\n'] input)) ∧
    (Lines.parse "abcdefg\r\nhijklmnop\nqrstuv".toList).num_lines = 2 := by
  refine ⟨fun h => ?_, fun h => ?_, by decide⟩
  · rw [parse_lines, segsOf, chosenSep, if_pos h]
  · rw [parse_lines, segsOf, chosenSep, h]
    simp

theorem parse_delimiter_choice_witness :
    (containsSub ['\r', '\n'] "a\r\nb\nc".toList = true ∧
      (Lines.parse "a\r\nb\nc".toList).lines =
        buildSpans 0 (splitInclusive ['\r', '\n'] "a\r\nb\nc".toList)) ∧
    (Lines.parse "a\r\nb\nc".toList).num_lines = 2 :=
  ⟨⟨by decide, (parse_delimiter_choice "a\r\nb\nc".toList).1 (by decide)⟩, by decide⟩

/-- C5: `num_lines` counts lines without an extra empty trailing line:
the empty input has 0 lines; a non-empty input with no `"\n"` occurrence
has exactly 1 line; no parsed span is ever empty (so a trailing
delimiter adds no empty line); and `"a\n"` has 1 line while `"a\nb"`
has 2. -/
theorem num_lines_no_trailing_empty (input : List Char) :
    (Lines.parse []).num_lines = 0 ∧
    (input ≠ [] → containsSub ['\n'] input = false →
      (Lines.parse input).num_lines = 1) ∧
    (∀ l ∈ (Lines.parse input).lines, l.start < l.«end») ∧
    (Lines.parse "a\n".toList).num_lines = 1 ∧
    (Lines.parse "a\nb".toList).num_lines = 2 := by
  refine ⟨by decide, fun hne hnc => ?_, ?_, by decide, by decide⟩
  · have hcr : containsSub ['\r', '\n'] input = false := by
      by_contra h
      have := contains_lf_of_contains_crlf input (by
        cases hc : containsSub ['\r', '\n'] input
        · exact absurd hc h
        · rfl)
      rw [this] at hnc
      cases hnc
    have hsep : chosenSep input = ['\n'] := by rw [chosenSep, hcr]; simp
    have hsegs : segsOf input = [input] := by
      rw [segsOf, hsep, splitInclusive,
        splitAux_of_not_contains ['\n'] input.length [] input (le_refl _) hnc]
      simp [hne]
    rw [Lines.num_lines, parse_lines_length, hsegs]
    rfl
  · rw [parse_lines]
    exact buildSpans_start_lt (segsOf input) 0
      (splitAux_segs_ne_nil (chosenSep input) (chosenSep_ne_nil input) input.length [] input)

theorem num_lines_no_trailing_empty_witness :
    ("xy".toList ≠ [] ∧ containsSub ['\n'] "xy".toList = false) ∧
    (Lines.parse "xy".toList).num_lines = 1 :=
  ⟨⟨by decide, by decide⟩,
   (num_lines_no_trailing_empty "xy".toList).2.1 (by decide) (by decide)⟩

/-- C6: for the input `"abcdefg\nhijklmnop\n"`, `position 8` succeeds
with line 2 and column 0, and `position 5` succeeds with line 1 and
column 5. -/
theorem position_concrete_example :
    (Lines.parse "abcdefg\nhijklmnop\n".toList).position 8 = .ok ⟨2, 0⟩ ∧
    (Lines.parse "abcdefg\nhijklmnop\n".toList).position 5 = .ok ⟨1, 5⟩ := by
  exact ⟨by decide, by decide⟩

/-- C7: the binary-search resolution (rightmost span whose `start` is at
most the offset, then a bounds check against its `end`) returns a result
identical to the implemented linear scan for every input and offset. -/
theorem positionBin_eq_position (input : List Char) (off : Nat) :
    positionBin (Lines.parse input) off = (Lines.parse input).position off := by
  obtain ⟨hub0, hubn, hble, hbgt⟩ :=
    bsGo_spec (Lines.parse input).lines off
      (fun i j hij hj => parse_start_mono input i j hij hj)
      (Lines.parse input).lines.length 0 (Lines.parse input).lines.length
      (Nat.zero_le _) (le_refl _) (by omega)
      (fun j hj => absurd hj (Nat.not_lt_zero _))
      (fun j h1 h2 => absurd h2 (by omega))
  rw [positionBin_def]
  by_cases hoff : off < input.length
  · obtain ⟨i, hi, h1, h2⟩ := parse_cover input off hoff
    have hieq : bsGo (Lines.parse input).lines off (Lines.parse input).lines.length 0
        (Lines.parse input).lines.length = i + 1 := by
      have hlt : i < bsGo (Lines.parse input).lines off (Lines.parse input).lines.length 0
          (Lines.parse input).lines.length := by
        by_contra hc
        push_neg at hc
        exact absurd h1 (not_le.mpr (hbgt i hc hi))
      have hle : bsGo (Lines.parse input).lines off (Lines.parse input).lines.length 0
          (Lines.parse input).lines.length ≤ i + 1 := by
        by_contra hc
        push_neg at hc
        have hstart := hble (i + 1) hc
        have hcont := parse_contiguous input i (by omega)
        omega
      omega
    rw [hieq]
    rw [if_neg (by omega : ¬i + 1 = 0), Nat.add_sub_cancel, if_pos h2]
    exact (position_ok_of_contains input off i hi h1 h2).symm
  · push_neg at hoff
    rw [position_err_of_ge input off hoff]
    by_cases hz : bsGo (Lines.parse input).lines off (Lines.parse input).lines.length 0
        (Lines.parse input).lines.length = 0
    · rw [if_pos hz]
    · rw [if_neg hz]
      have hlt : bsGo (Lines.parse input).lines off (Lines.parse input).lines.length 0
          (Lines.parse input).lines.length - 1 < (Lines.parse input).lines.length := by
        omega
      have hend := parse_end_le_length input _ hlt
      rw [if_neg (by omega)]

/-- C8: whenever `position` succeeds on a parsed index, the returned
position has `1 ≤ line ≤ num_lines` and its `offset` is strictly below
the extent (`end - start`) of the span it resolved to. -/
theorem position_result_in_range (input : List Char) (off : Nat) (p : LinePosition)
    (hp : (Lines.parse input).position off = .ok p) :
    1 ≤ p.line ∧ p.line ≤ (Lines.parse input).num_lines ∧
    p.line - 1 < (Lines.parse input).lines.length ∧
    p.offset < ((Lines.parse input).lines.getD (p.line - 1) ⟨0, 0⟩).«end» -
      ((Lines.parse input).lines.getD (p.line - 1) ⟨0, 0⟩).start := by
  obtain ⟨i, hi, h1, h2, h3, h4⟩ := position_ok_elim input off p hp
  have hnum : (Lines.parse input).num_lines = (Lines.parse input).lines.length := rfl
  have hidx : p.line - 1 = i := by omega
  rw [hnum, hidx]
  exact ⟨by omega, by omega, hi, by omega⟩

theorem position_result_in_range_witness :
    (Lines.parse "ab\ncd".toList).position 3 = .ok ⟨2, 0⟩ ∧
    (1 ≤ (⟨2, 0⟩ : LinePosition).line ∧
      (⟨2, 0⟩ : LinePosition).line ≤ (Lines.parse "ab\ncd".toList).num_lines ∧
      (⟨2, 0⟩ : LinePosition).line - 1 < (Lines.parse "ab\ncd".toList).lines.length ∧
      (⟨2, 0⟩ : LinePosition).offset <
        ((Lines.parse "ab\ncd".toList).lines.getD
          ((⟨2, 0⟩ : LinePosition).line - 1) ⟨0, 0⟩).«end» -
        ((Lines.parse "ab\ncd".toList).lines.getD
          ((⟨2, 0⟩ : LinePosition).line - 1) ⟨0, 0⟩).start) :=
  ⟨by decide, position_result_in_range "ab\ncd".toList 3 ⟨2, 0⟩ (by decide)⟩

/-- C9: a lone carriage return never delimits a line: when the input
contains no `"\r\n"`, every interior span boundary sits immediately
after a `'\n'` character; concretely `parse "a\rb"` has one line and
`position 2` resolves to line 1, column 2. -/
theorem lone_cr_not_delimiter (input : List Char) :
    (containsSub ['\r', '\n'] input = false →
      ∀ i, i + 1 < (Lines.parse input).lines.length →
        ∃ k, ((Lines.parse input).lines.getD i ⟨0, 0⟩).«end» = k + 1 ∧
          input.getD k 'a' = '\n') ∧
    (Lines.parse "a\rb".toList).num_lines = 1 ∧
    (Lines.parse "a\rb".toList).position 2 = .ok ⟨1, 2⟩ := by
  refine ⟨fun hcr i hi => ?_, by decide, by decide⟩
  have hsep : chosenSep input = ['\n'] := by rw [chosenSep, hcr]; simp
  rw [parse_lines_length] at hi
  obtain ⟨pre, hpre⟩ : ∃ pre, (segsOf input).getD i [] = pre ++ ['\n'] := by
    have hi' : i + 1 < (splitAux (chosenSep input) input.length [] input).length := by
      rw [segsOf, splitInclusive] at hi
      exact hi
    have h := splitAux_seg_endsWith (chosenSep input) input.length [] input i hi'
    rw [hsep] at h
    rw [segsOf, splitInclusive, hsep]
    exact h
  have hlen1 : 1 ≤ sumLen ((segsOf input).take (i + 1)) := by
    rw [sumLen_take_succ (segsOf input) i (by omega), hpre]
    simp
    omega
  refine ⟨sumLen ((segsOf input).take (i + 1)) - 1, ?_, ?_⟩
  · rw [parse_getD input i (by omega)]
    show sumLen ((segsOf input).take (i + 1)) =
      sumLen ((segsOf input).take (i + 1)) - 1 + 1
    omega
  · have hflat : (segsOf input).flatten = input := by
      rw [segsOf, splitInclusive_join _ _ (chosenSep_ne_nil input)]
    have h := flatten_getD_of_seg_eq (segsOf input) i pre '\n' 'a' (by omega) hpre
    rw [hflat] at h
    exact h

theorem lone_cr_not_delimiter_witness :
    (containsSub ['\r', '\n'] "ab\ncd".toList = false ∧
      0 + 1 < (Lines.parse "ab\ncd".toList).lines.length) ∧
    (∃ k, ((Lines.parse "ab\ncd".toList).lines.getD 0 ⟨0, 0⟩).«end» = k + 1 ∧
      "ab\ncd".toList.getD k 'a' = '\n') :=
  ⟨⟨by decide, by decide⟩,
   (lone_cr_not_delimiter "ab\ncd".toList).1 (by decide) 0 (by decide)⟩

/-- C10: `position` is monotone in the offset: on one parsed index, for
two successful lookups at offsets `o1 ≤ o2`, the first line number is at
most the second, and when the lines coincide the columns differ by
exactly `o2 - o1`. -/
theorem position_monotone (input : List Char) (o1 o2 : Nat) (p1 p2 : LinePosition)
    (h12 : o1 ≤ o2)
    (hp1 : (Lines.parse input).position o1 = .ok p1)
    (hp2 : (Lines.parse input).position o2 = .ok p2) :
    p1.line ≤ p2.line ∧ (p1.line = p2.line → p2.offset = p1.offset + (o2 - o1)) := by
  obtain ⟨i1, hi1, h11, h12a, h13, h14⟩ := position_ok_elim input o1 p1 hp1
  obtain ⟨i2, hi2, h21, h22, h23, h24⟩ := position_ok_elim input o2 p2 hp2
  have hile : i1 ≤ i2 := by
    by_contra hc
    push_neg at hc
    have := parse_end_le_start input i2 i1 hc hi1
    omega
  constructor
  · omega
  · intro hline
    have : i1 = i2 := by omega
    subst this
    omega

theorem position_monotone_witness :
    (1 ≤ 4 ∧
      (Lines.parse "ab\ncd".toList).position 1 = .ok ⟨1, 1⟩ ∧
      (Lines.parse "ab\ncd".toList).position 4 = .ok ⟨2, 1⟩) ∧
    ((⟨1, 1⟩ : LinePosition).line ≤ (⟨2, 1⟩ : LinePosition).line ∧
      ((⟨1, 1⟩ : LinePosition).line = (⟨2, 1⟩ : LinePosition).line →
        (⟨2, 1⟩ : LinePosition).offset = (⟨1, 1⟩ : LinePosition).offset + (4 - 1))) :=
  ⟨⟨by decide, by decide, by decide⟩,
   position_monotone "ab\ncd".toList 1 4 ⟨1, 1⟩ ⟨2, 1⟩ (by decide) (by decide) (by decide)⟩

end LinePos
